import Mathlib

/-!
Verification of the editr collaborative text-editor core.

The definitions below are a shallow embedding of the Rust source:

* `Node`, `Node.insertAt`, `Node.removeRange`, `Node.flattenN`,
  `Node.collect` embed `src/rope.rs` (the rope: a binary tree of byte
  runs with cached sizes).  A Rust panic (e.g. `Vec::split_off` with an
  out-of-bounds index, or slicing with a reversed range) is modelled as
  `none`; every non-panicking execution is `some`.
* `FileSt` with `lookupC` / `insertC` / `removeC`, `FileSt.moveCursor`,
  `FileSt.writeAtCursor`, `FileSt.removeAtCursor` embed
  `src/state/file_states/file_state.rs` (one open file: a rope plus the
  per-session cursor map).
* `Table` with `openT` / `closeT` / `fsWrite` / `fsRemove` /
  `flushBytes` embed `src/state/file_states/mod.rs` (the canonical-path
  to file-state table).
* `Outbound`, `writeOut`, `bcastFold`, and the `fileWriteL` family embed
  `src/state/local_state/mod.rs` together with
  `src/state/socket/shared_out.rs` (per-session local state, broadcast
  emission through the shared outbound table, and the path sandbox).

Machine integers (`usize`) are modelled as `Nat`; the one place the code
performs a signed-to-unsigned cast (`as usize` in `move_cursor`) is
modelled as arithmetic modulo `2 ^ 64` (`castUsize`).  Bytes are `Nat`,
session ids (`ThreadId`) are `Nat`, canonical paths are lists of `Nat`
path components, and the OS services (canonicalisation, the disk) are
explicit function parameters.
-/

namespace Editr

abbrev Bytes := List Nat

/-- One rope node, from `enum Node` in `src/rope.rs`: a `Leaf` owns a byte
buffer, an `Internal` caches `index` (= left subtree size) and `size`
(= total size) and owns two children. -/
inductive Node where
  | leaf : Bytes → Node
  | internal : Nat → Nat → Node → Node → Node
  deriving Repr, DecidableEq

namespace Node

/-- `Node::size` from `src/rope.rs`: leaf data length, or the cached size. -/
def size : Node → Nat
  | .leaf d => d.length
  | .internal _ s _ _ => s

/-- The byte sequence a node denotes: in-order concatenation of its leaves. -/
def toList : Node → Bytes
  | .leaf d => d
  | .internal _ _ l r => l.toList ++ r.toList

/-- The leaf-replacement step shared by `Node::insert_at` and
`Node::remove_range`: if one side is empty keep only the other,
else build an `Internal` with recomputed cached sizes. -/
def mkLeafPair (left right : Bytes) : Node :=
  if left.length = 0 then .leaf right
  else if right.length = 0 then .leaf left
  else .internal left.length (left.length + right.length) (.leaf left) (.leaf right)

/-- `Node::insert_at` from `src/rope.rs`.  At a leaf the buffer is split at
`index` (`Vec::split_off`, which panics — modelled `none` — when
`index > len`), the input is appended to the left half, and the halves are
reassembled.  At an internal node the descent goes left when
`index ≤ inner.index`, else right with `index - inner.index`, and the cached
sizes are recomputed afterwards. -/
def insertAt : Node → Nat → Bytes → Option Node
  | .leaf d, index, input =>
    if index ≤ d.length then
      some (mkLeafPair (d.take index ++ input) (d.drop index))
    else none
  | .internal i _ l r, index, input =>
    if index ≤ i then
      (l.insertAt index input).map fun l' =>
        .internal l'.size (l'.size + r.size) l' r
    else
      (r.insertAt (index - i) input).map fun r' =>
        .internal l.size (l.size + r'.size) l r'

/-- The child-promotion step of `Node::remove_range`: replacing a node by a
copy of one child, recomputing the cached sizes from the child's children. -/
def promote : Node → Node
  | .leaf d => .leaf d
  | .internal _ _ cl cr => .internal cl.size (cl.size + cr.size) cl cr

/-- `Node::remove_range` from `src/rope.rs`.  At a leaf: `split_off(til)`
(panics — `none` — when `til > len`), truncate the left half to `from`,
reassemble.  At an internal node with split point `i`: left child gets
`(min i from, min i til)`, right child gets `(max i from - i, max i til - i)`;
afterwards an empty child causes the other child to be promoted, else the
cached sizes are recomputed. -/
def removeRange : Node → Nat → Nat → Option Node
  | .leaf d, fro, til =>
    if til ≤ d.length then
      some (mkLeafPair ((d.take til).take fro) (d.drop til))
    else none
  | .internal i _ l r, fro, til =>
    match l.removeRange (min i fro) (min i til),
          r.removeRange (max i fro - i) (max i til - i) with
    | some l', some r' =>
      if l'.size = 0 then some r'.promote
      else if r'.size = 0 then some l'.promote
      else some (.internal l'.size (l'.size + r'.size) l' r')
    | _, _ => none

/-- `Node::flatten` from `src/rope.rs`: post-order traversal replacing each
internal node whose children flattened to leaves by one concatenated leaf;
the unreachable non-leaf case panics (`none`). -/
def flattenN : Node → Option Node
  | .leaf d => some (.leaf d)
  | .internal _ _ l r =>
    match l.flattenN, r.flattenN with
    | some (.leaf a), some (.leaf b) => some (.leaf (a ++ b))
    | _, _ => none

/-- The in-order leaf buffers, as produced by `LeafIter` in `src/rope.rs`. -/
def leafDatas : Node → List Bytes
  | .leaf d => [d]
  | .internal _ _ l r => leafDatas l ++ leafDatas r

/-- Well-formedness of the cached sizes: for every internal node,
`index` equals the left child's size and `size` the sum of both children's
sizes (the at-rest invariant of `src/rope.rs`). -/
def wfb : Node → Bool
  | .leaf _ => true
  | .internal i s l r => wfb l && wfb r && decide (i = l.size) && decide (s = l.size + r.size)

end Node

/-- Concatenation of a list of byte buffers. -/
def concatAll : List Bytes → Bytes
  | [] => []
  | d :: rest => d ++ concatAll rest

/-- The loop body of `Rope::collect` from `src/rope.rs`: walk the leaf
buffers keeping a running `counter`; skip buffers wholly outside
`[fro, til)`; otherwise slice the buffer (`&data[slice_from..slice_to]`,
which panics — `none` — when the slice bounds are reversed or exceed the
buffer) and append it to the collection. -/
def collectGo (fro til : Nat) : Nat → List Bytes → Option Bytes
  | _, [] => some []
  | counter, d :: rest =>
    let len := d.length
    let ae := counter + len
    if til ≤ counter ∨ ae ≤ fro then collectGo fro til ae rest
    else
      let sf := if counter < fro then fro - counter else 0
      let st := if til < ae then til - counter else len
      if sf ≤ st ∧ st ≤ len then
        match collectGo fro til ae rest with
        | some acc => some ((d.take st).drop sf ++ acc)
        | none => none
      else none

/-- `Rope::collect` from `src/rope.rs`. -/
def Node.collect (n : Node) (fro til : Nat) : Option Bytes :=
  collectGo fro til 0 n.leafDatas

/-- `Rope::new` from `src/rope.rs`: a single empty leaf. -/
def ropeNew : Node := .leaf []

/-! ## Per-file state: `src/state/file_states/file_state.rs` -/

abbrev SessionId := Nat

/-- One entry of the `clients` map of `FileState`: session id, cursor
offset, optional display name (names abstracted to `Nat`). -/
abbrev Client := SessionId × Nat × Option Nat

/-- `FileState`: one open file's rope plus its per-session cursor map
(the `HashMap` is modelled as an association list with unique keys). -/
structure FileSt where
  rope : Node
  clients : List Client
  deriving Repr, DecidableEq

/-- `HashMap::get` on the cursor map. -/
def lookupC : List Client → SessionId → Option (Nat × Option Nat)
  | [], _ => none
  | c :: rest, id => if c.1 = id then some c.2 else lookupC rest id

/-- `HashMap::insert` on the cursor map (replaces an existing key). -/
def insertC (cs : List Client) (id : SessionId) (v : Nat × Option Nat) : List Client :=
  cs.filter (fun c => c.1 != id) ++ [(id, v.1, v.2)]

/-- `HashMap::remove` on the cursor map. -/
def removeC (cs : List Client) (id : SessionId) : List Client :=
  cs.filter (fun c => c.1 != id)

/-- The Rust `as usize` cast applied to a (possibly negative) signed
value: wrap modulo `2 ^ 64`. -/
def castUsize (x : Int) : Nat := (x % ((2 : Int) ^ 64)).toNat

/-- The cursor position the spec prescribes for `move_cursor`, following
its words: "`delta` is signed; result is clamped to `[0, rope.len()]`" —
kept separate from the code's `castUsize` arithmetic so the two can be
compared. -/
def clampCursorSpec (old : Nat) (delta : Int) (len : Nat) : Nat :=
  min (max ((old : Int) + delta) 0).toNat len

/-- `FileState::add_client`: insert `(id, (0, name))`. -/
def FileSt.addClient (fs : FileSt) (id : SessionId) (name : Option Nat) : FileSt :=
  { fs with clients := insertC fs.clients id (0, name) }

/-- `FileState::remove_client`. -/
def FileSt.removeClient (fs : FileSt) (id : SessionId) : FileSt :=
  { fs with clients := removeC fs.clients id }

/-- `FileState::no_clients`. -/
def FileSt.noClients (fs : FileSt) : Bool := fs.clients.isEmpty

/-- `FileState::move_cursor` from `src/state/file_states/file_state.rs`:
for a known id the new offset is `(old as isize + delta) as usize` — no
clamping — and an unknown id is silently ignored. -/
def FileSt.moveCursor (fs : FileSt) (id : SessionId) (delta : Int) : FileSt :=
  match lookupC fs.clients id with
  | none => fs
  | some (old, nm) =>
    { fs with clients := insertC fs.clients id (castUsize ((old : Int) + delta), nm) }

/-- `FileState::write_at_cursor`: look up the caller's cursor
(`found_value`), insert there, then shift every cursor at or above
`found_value` up by the data length. -/
def FileSt.writeAtCursor (fs : FileSt) (id : SessionId) (data : Bytes) :
    Option (FileSt × Nat) :=
  match lookupC fs.clients id with
  | none => none
  | some (fv, _) =>
    match fs.rope.insertAt fv data with
    | none => none
    | some rope' =>
      some ({ rope := rope',
              clients := fs.clients.map fun c =>
                if fv ≤ c.2.1 then (c.1, c.2.1 + data.length, c.2.2) else c },
            fv)

/-- `FileState::remove_at_cursor`: look up the caller's cursor, remove
`[fv, fv+len)`, then shift every cursor at or above `fv` down by `len`,
clamping at `fv` (the signed comparison `new_offset_signed < found_value`
becomes `c < fv + len` over `Nat`). -/
def FileSt.removeAtCursor (fs : FileSt) (id : SessionId) (len : Nat) :
    Option (FileSt × Nat) :=
  match lookupC fs.clients id with
  | none => none
  | some (fv, _) =>
    match fs.rope.removeRange fv (fv + len) with
    | none => none
    | some rope' =>
      some ({ rope := rope',
              clients := fs.clients.map fun c =>
                if fv ≤ c.2.1 then
                  (c.1, if c.2.1 < fv + len then fv else c.2.1 - len, c.2.2)
                else c },
            fv)

/-! ## The file table: `src/state/file_states/mod.rs` -/

/-- Canonical absolute paths, as lists of path components. -/
abbrev Path := List Nat

/-- `FileStates`: the canonical-path → `FileState` map. -/
abbrev Table := List (Path × FileSt)

/-- `HashMap::get` on the file table. -/
def lookupT : Table → Path → Option FileSt
  | [], _ => none
  | e :: rest, p => if e.1 = p then some e.2 else lookupT rest p

/-- `FileStates::contains`. -/
def containsT (t : Table) (p : Path) : Bool := (lookupT t p).isSome

/-- Replace the file state stored at a present key. -/
def updateT : Table → Path → FileSt → Table
  | [], _, _ => []
  | e :: rest, p, fs => if e.1 = p then (p, fs) :: rest else e :: updateT rest p fs

/-- `HashMap::remove` on the file table. -/
def removeT (t : Table) (p : Path) : Table := t.filter (fun e => e.1 != p)

/-- `read_to_rope` from `src/state/file_states/mod.rs`: `Rope::new`
followed by `insert_at(0, buffer)`. -/
def readToRope (buf : Bytes) : Option Node := ropeNew.insertAt 0 buf

/-- `FileStates::open`: if the path is present add the client to the
existing entry, else read the file from disk (`disk p = some contents`
when readable) into a fresh rope, add the client and insert the entry. -/
def openT (disk : Path → Option Bytes) (t : Table) (p : Path) (id : SessionId)
    (name : Option Nat) : Option Table :=
  match lookupT t p with
  | some fs => some (updateT t p (fs.addClient id name))
  | none =>
    match disk p with
    | none => none
    | some buf =>
      match readToRope buf with
      | none => none
      | some rope =>
        some (t ++ [(p, FileSt.addClient { rope := rope, clients := [] } id name)])

/-- `FileStates::close`: remove the client from the entry (failing when the
path is absent), then evict the entry if no clients remain. -/
def closeT (t : Table) (p : Path) (id : SessionId) : Option Table :=
  match lookupT t p with
  | none => none
  | some fs =>
    let t' := updateT t p (fs.removeClient id)
    some (match lookupT t' p with
          | some st => if st.noClients then removeT t' p else t'
          | none => t')

/-- `FileStates::write`: `file.insert_at(offset, data)` on the entry's rope;
the cursor map is not touched. -/
def writeT (t : Table) (p : Path) (offset : Nat) (data : Bytes) : Option Table :=
  match lookupT t p with
  | none => none
  | some fs =>
    match fs.rope.insertAt offset data with
    | none => none
    | some rope' => some (updateT t p { fs with rope := rope' })

/-- `FileStates::remove`: `file.remove_range(offset, offset + len)`;
the cursor map is not touched. -/
def removeRangeT (t : Table) (p : Path) (offset len : Nat) : Option Table :=
  match lookupT t p with
  | none => none
  | some fs =>
    match fs.rope.removeRange offset (offset + len) with
    | none => none
    | some rope' => some (updateT t p { fs with rope := rope' })

/-- `FileStates::flush`: flatten the entry's rope, collect `[0, len())`;
the returned bytes are what `File::create(path).write_all` puts on disk. -/
def flushT (t : Table) (p : Path) : Option (Table × Bytes) :=
  match lookupT t p with
  | none => none
  | some fs =>
    match fs.rope.flattenN with
    | none => none
    | some flat =>
      match flat.collect 0 flat.size with
      | none => none
      | some bytes => some (updateT t p { fs with rope := flat }, bytes)

/-- `FileStates::file_write_cursor`. -/
def writeCursorT (t : Table) (p : Path) (id : SessionId) (data : Bytes) :
    Option (Table × Nat) :=
  match lookupT t p with
  | none => none
  | some fs =>
    match fs.writeAtCursor id data with
    | none => none
    | some (fs', off) => some (updateT t p fs', off)

/-- `FileStates::file_remove_cursor`. -/
def removeCursorT (t : Table) (p : Path) (id : SessionId) (len : Nat) :
    Option (Table × Nat) :=
  match lookupT t p with
  | none => none
  | some fs =>
    match fs.removeAtCursor id len with
    | none => none
    | some (fs', off) => some (updateT t p fs', off)

/-- `FileStates::move_cursor`. -/
def moveCursorT (t : Table) (p : Path) (id : SessionId) (delta : Int) :
    Option Table :=
  match lookupT t p with
  | none => none
  | some fs => some (updateT t p (fs.moveCursor id delta))

/-! ## Outbound sinks and broadcast:
`src/state/socket/shared_out.rs`, `src/state/local_state/mod.rs`,
`src/message.rs` -/

/-- One update envelope (`Message::make_add_broadcast` /
`Message::make_del_broadcast` in `src/message.rs`). -/
inductive Upd where
  | add (offset : Nat) (data : Bytes)
  | rem (offset : Nat) (len : Nat)
  deriving Repr, DecidableEq

/-- `SharedOut`: session id → the sequence of envelopes written to that
session's sink so far. -/
abbrev Outbound := List (SessionId × List Upd)

/-- Read a session's sink buffer. -/
def lookupOut : Outbound → SessionId → Option (List Upd)
  | [], _ => none
  | e :: rest, id => if e.1 = id then some e.2 else lookupOut rest id

/-- `SharedOut::write`: fails when the session has no sink, else appends
the envelope to that sink. -/
def writeOut : Outbound → SessionId → Upd → Option Outbound
  | [], _, _ => none
  | e :: rest, id, m =>
    if e.1 = id then some ((e.1, e.2 ++ [m]) :: rest)
    else (writeOut rest id m).map (e :: ·)

/-- The `for_each_client` loop of `LocalState::broadcast_neighbours`:
write the envelope to every client other than the caller, aborting on the
first sink failure. -/
def bcastFold (selfId : SessionId) (m : Upd) : List Client → Outbound → Option Outbound
  | [], out => some out
  | c :: rest, out =>
    if c.1 = selfId then bcastFold selfId m rest out
    else
      match writeOut out c.1 m with
      | none => none
      | some out' => bcastFold selfId m rest out'

/-- `LocalState::broadcast_neighbours`. -/
def broadcastNeighbours (t : Table) (out : Outbound) (selfId : SessionId)
    (p : Path) (m : Upd) : Option Outbound :=
  match lookupT t p with
  | none => none
  | some fs => bcastFold selfId m fs.clients out

/-! ## Per-session local state: `src/state/local_state/mod.rs` -/

/-- The fields of `LocalState` the claims depend on. -/
structure LocalSt where
  threadId : SessionId
  canonicalHome : Path
  openedFile : Option Path
  deriving Repr, DecidableEq

/-- `Path::starts_with` on canonical paths: `isUnder home p` is true when
`home` is a component-wise prefix of `p`. -/
def isUnder : Path → Path → Bool
  | [], _ => true
  | _ :: _, [] => false
  | a :: as, b :: bs => a == b && isUnder as bs

/-- `LocalState::prepend_home`: push the (relative) user path onto
`canonical_home`. -/
def prependHome (home userPath : Path) : Path := home ++ userPath

/-- The session-layer errors the claims mention. -/
inductive Err where
  | notOpen      -- "File not open"
  | invalidPath  -- "Invalid file path"
  | busy           -- "File is busy"
  | alreadyExists  -- "File already exists"
  | ioErr          -- canonicalize / filesystem / rope failure
  | tableMiss      -- "Thread local storage does not exist" (file table)
  | sinkMiss       -- "Thread local storage does not exist" (outbound sink)
  deriving Repr, DecidableEq

/-- `LocalState::file_close`: close the currently open file, if any, and
clear `opened_file`. -/
def fileCloseL (t : Table) (l : LocalSt) : Option (Table × LocalSt) :=
  match l.openedFile with
  | none => some (t, l)
  | some p =>
    match closeT t p l.threadId with
    | none => none
    | some t' => some (t', { l with openedFile := none })

/-- `LocalState::file_open`.  First `file_close` (unconditionally), then
canonicalise the joined path (`canon` models `Path::canonicalize`: symlink
and dot-dot resolution, `none` when the path does not exist), then the
home-prefix check, then `FileStates::open`.  Returns the reply plus the
table and session state after the call. -/
def fileOpenL (canon : Path → Option Path) (disk : Path → Option Bytes)
    (t : Table) (l : LocalSt) (userPath : Path) :
    Except Err Path × Table × LocalSt :=
  match fileCloseL t l with
  | none => (.error .tableMiss, t, l)
  | some (t1, l1) =>
    match canon (prependHome l1.canonicalHome userPath) with
    | none => (.error .ioErr, t1, l1)
    | some cp =>
      if isUnder l1.canonicalHome cp then
        match openT disk t1 cp l1.threadId none with
        | none => (.error .ioErr, t1, l1)
        | some t2 => (.ok cp, t2, { l1 with openedFile := some cp })
      else (.error .invalidPath, t1, l1)

/-- `LocalState::file_create`: `OpenOptions::create_new` directly on
`prepend_home(path)` — no canonicalisation, no home-prefix check.
`diskHas` models file existence; the returned function is the filesystem
after the call. -/
def fileCreateL (diskHas : Path → Bool) (l : LocalSt) (userPath : Path) :
    Except Err Unit × (Path → Bool) :=
  let p := prependHome l.canonicalHome userPath
  if diskHas p then (.error .ioErr, diskHas)
  else (.ok (), fun q => if q = p then true else diskHas q)

/-- `LocalState::file_delete`: canonicalise, refuse when the file is open
in the table ("File is busy"), else `fs::remove_file` — with no
home-prefix check anywhere. -/
def fileDeleteL (canon : Path → Option Path) (diskHas : Path → Bool)
    (t : Table) (l : LocalSt) (userPath : Path) :
    Except Err Unit × (Path → Bool) :=
  match canon (prependHome l.canonicalHome userPath) with
  | none => (.error .ioErr, diskHas)
  | some cp =>
    if containsT t cp then (.error .busy, diskHas)
    else if diskHas cp then (.ok (), fun q => if q = cp then false else diskHas q)
    else (.error .ioErr, diskHas)

/-- `LocalState::file_rename`: canonicalise the source, keep the target as
the raw joined path (not canonicalised), fail when the target already
exists ("File already exists") or the source is open in the table
("File is busy"), else `fs::rename` — with no home-prefix check on either
path. -/
def fileRenameL (canon : Path → Option Path) (diskHas : Path → Bool)
    (t : Table) (l : LocalSt) (fromPath toPath : Path) :
    Except Err Unit × (Path → Bool) :=
  match canon (prependHome l.canonicalHome fromPath) with
  | none => (.error .ioErr, diskHas)
  | some cf =>
    if diskHas (prependHome l.canonicalHome toPath) then (.error .alreadyExists, diskHas)
    else if containsT t cf then (.error .busy, diskHas)
    else if diskHas cf then
      (.ok (), fun q =>
        if q = cf then false
        else if q = prependHome l.canonicalHome toPath then true
        else diskHas q)
    else (.error .ioErr, diskHas)

/-- `LocalState::file_write`: `FileStates::write` at an absolute offset,
then an `Add` broadcast to the neighbours. -/
def fileWriteL (t : Table) (out : Outbound) (l : LocalSt)
    (offset : Nat) (data : Bytes) : Except Err (Table × Outbound) :=
  match l.openedFile with
  | none => .error .notOpen
  | some p =>
    match writeT t p offset data with
    | none => .error .ioErr
    | some t' =>
      match broadcastNeighbours t' out l.threadId p (.add offset data) with
      | none => .error .sinkMiss
      | some out' => .ok (t', out')

/-- `LocalState::file_remove`: `FileStates::remove`, then a `Remove`
broadcast to the neighbours. -/
def fileRemoveL (t : Table) (out : Outbound) (l : LocalSt)
    (offset len : Nat) : Except Err (Table × Outbound) :=
  match l.openedFile with
  | none => .error .notOpen
  | some p =>
    match removeRangeT t p offset len with
    | none => .error .ioErr
    | some t' =>
      match broadcastNeighbours t' out l.threadId p (.rem offset len) with
      | none => .error .sinkMiss
      | some out' => .ok (t', out')

/-- `LocalState::file_write_cursor`: note that, unlike `file_write`, no
broadcast is emitted — the outbound table is returned untouched. -/
def fileWriteCursorL (t : Table) (out : Outbound) (l : LocalSt)
    (data : Bytes) : Except Err (Table × Outbound) :=
  match l.openedFile with
  | none => .error .notOpen
  | some p =>
    match writeCursorT t p l.threadId data with
    | none => .error .ioErr
    | some (t', _) => .ok (t', out)

/-- `LocalState::file_remove_cursor`: again no broadcast. -/
def fileRemoveCursorL (t : Table) (out : Outbound) (l : LocalSt)
    (len : Nat) : Except Err (Table × Outbound) :=
  match l.openedFile with
  | none => .error .notOpen
  | some p =>
    match removeCursorT t p l.threadId len with
    | none => .error .ioErr
    | some (t', _) => .ok (t', out)

/-- `LocalState::file_save` (`SaveReq`): `FileStates::flush` on the open
file; the second component is the byte sequence written to disk. -/
def fileSaveL (t : Table) (l : LocalSt) : Except Err (Table × Bytes) :=
  match l.openedFile with
  | none => .error .notOpen
  | some p =>
    match flushT t p with
    | none => .error .ioErr
    | some r => .ok r

/-! ## Reference splice semantics for claim C3 -/

/-- One rope edit: `Rope::insert_at(index, input)` or
`Rope::remove(fro, len)` (which is `remove_range(fro, fro + len)`). -/
inductive EditOp where
  | ins (index : Nat) (input : Bytes)
  | del (fro len : Nat)
  deriving Repr, DecidableEq

/-- Apply one edit to a rope. -/
def applyOp (n : Node) : EditOp → Option Node
  | .ins i d => n.insertAt i d
  | .del f len => n.removeRange f (f + len)

/-- Apply a sequence of edits to a rope. -/
def applyOps (n : Node) : List EditOp → Option Node
  | [] => some n
  | op :: rest =>
    match applyOp n op with
    | none => none
    | some n' => applyOps n' rest

/-- The same splice on a flat byte sequence (the reference semantics). -/
def refOp (B : Bytes) : EditOp → Bytes
  | .ins i d => B.take i ++ d ++ B.drop i
  | .del f len => B.take f ++ B.drop (f + len)

/-- The reference byte sequence after a sequence of splices. -/
def refOps (B : Bytes) : List EditOp → Bytes
  | [] => B
  | op :: rest => refOps (refOp B op) rest

/-- In-range check for one edit against the current length. -/
def okOp (B : Bytes) : EditOp → Bool
  | .ins i _ => i ≤ B.length
  | .del f len => f + len ≤ B.length

/-- In-range check for a whole edit sequence. -/
def okOps : Bytes → List EditOp → Bool
  | _, [] => true
  | B, op :: rest => okOp B op && okOps (refOp B op) rest

end Editr

/-! ## Lemmas about the rope -/

namespace Editr

namespace Node

theorem wfb_internal {i s : Nat} {l r : Node} :
    wfb (.internal i s l r) = true ↔
      wfb l = true ∧ wfb r = true ∧ i = l.size ∧ s = l.size + r.size := by
  simp [wfb, Bool.and_eq_true, and_assoc]

theorem size_eq_length {n : Node} (h : wfb n = true) : n.size = n.toList.length := by
  induction n with
  | leaf d => simp [size, toList]
  | internal i s l r ihl ihr =>
    rw [wfb_internal] at h
    obtain ⟨hl, hr, hi, hs⟩ := h
    show s = (l.toList ++ r.toList).length
    rw [hs, List.length_append, ihl hl, ihr hr]

theorem toList_mkLeafPair (a b : Bytes) : (mkLeafPair a b).toList = a ++ b := by
  unfold mkLeafPair
  by_cases ha : a.length = 0
  · simp [ha, List.length_eq_zero.mp ha, toList]
  · by_cases hb : b.length = 0
    · simp [ha, hb, List.length_eq_zero.mp hb, toList]
    · simp [ha, hb, toList]

theorem wfb_mkLeafPair (a b : Bytes) : wfb (mkLeafPair a b) = true := by
  unfold mkLeafPair
  by_cases ha : a.length = 0
  · simp [ha, wfb]
  · by_cases hb : b.length = 0
    · simp [ha, hb, wfb]
    · simp [ha, hb, wfb, size]

theorem toList_promote (n : Node) : n.promote.toList = n.toList := by
  cases n <;> rfl

theorem wfb_promote {n : Node} (h : wfb n = true) : wfb n.promote = true := by
  cases n with
  | leaf d => simp [promote, wfb]
  | internal i s l r =>
    rw [wfb_internal] at h
    rw [promote, wfb_internal]
    exact ⟨h.1, h.2.1, rfl, rfl⟩

theorem insertAt_spec :
    ∀ (n : Node) (index : Nat) (input : Bytes),
      wfb n = true → index ≤ n.size →
      ∃ n', n.insertAt index input = some n' ∧ wfb n' = true ∧
        n'.toList = n.toList.take index ++ input ++ n.toList.drop index := by
  intro n
  induction n with
  | leaf d =>
    intro index input _ hle
    rw [size] at hle
    refine ⟨_, by rw [insertAt, if_pos hle], wfb_mkLeafPair _ _, ?_⟩
    rw [toList_mkLeafPair, toList, List.append_assoc]
  | internal i s l r ihl ihr =>
    intro index input hwf hle
    rw [wfb_internal] at hwf
    obtain ⟨hl, hr, hi, hs⟩ := hwf
    rw [size] at hle
    have hA : l.size = l.toList.length := size_eq_length hl
    have hB : r.size = r.toList.length := size_eq_length hr
    by_cases hc : index ≤ i
    · obtain ⟨l', hli, hlw, hlt⟩ := ihl index input hl (by omega)
      refine ⟨_, by rw [insertAt, if_pos hc, hli]; rfl, ?_, ?_⟩
      · rw [wfb_internal]; exact ⟨hlw, hr, rfl, rfl⟩
      · rw [toList, toList, hlt,
          List.take_append_eq_append_take, List.drop_append_eq_append_drop]
        have h0 : index - l.toList.length = 0 := by omega
        simp [h0]
    · obtain ⟨r', hri, hrw, hrt⟩ := ihr (index - i) input hr (by omega)
      refine ⟨_, by rw [insertAt, if_neg hc, hri]; rfl, ?_, ?_⟩
      · rw [wfb_internal]; exact ⟨hl, hrw, rfl, rfl⟩
      · rw [toList, toList, hrt,
          List.take_append_eq_append_take, List.drop_append_eq_append_drop]
        have h1 : l.toList.length ≤ index := by omega
        rw [List.take_of_length_le h1, List.drop_eq_nil_of_le h1]
        have h2 : index - l.toList.length = index - i := by omega
        simp [h2]

theorem splice_append (A B : Bytes) (fro til : Nat) (h : fro ≤ til) :
    (A ++ B).take fro ++ (A ++ B).drop til =
      (A.take (min A.length fro) ++ A.drop (min A.length til)) ++
      (B.take (max A.length fro - A.length) ++ B.drop (max A.length til - A.length)) := by
  rw [List.take_append_eq_append_take, List.drop_append_eq_append_drop]
  rcases Nat.le_total til A.length with hc | hc
  · have h1 : min A.length fro = fro := by omega
    have h2 : min A.length til = til := by omega
    have h3 : max A.length fro - A.length = 0 := by omega
    have h4 : max A.length til - A.length = 0 := by omega
    have h5 : fro - A.length = 0 := by omega
    have h6 : til - A.length = 0 := by omega
    simp [h1, h2, h3, h4, h5, h6]
  · rcases Nat.le_total fro A.length with hd | hd
    · have h1 : min A.length fro = fro := by omega
      have h2 : min A.length til = A.length := by omega
      have h3 : max A.length fro - A.length = 0 := by omega
      have h4 : max A.length til - A.length = til - A.length := by omega
      have h5 : fro - A.length = 0 := by omega
      simp [h1, h2, h3, h4, h5, List.drop_eq_nil_of_le hc]
    · have h1 : min A.length fro = A.length := by omega
      have h2 : min A.length til = A.length := by omega
      have h3 : max A.length fro - A.length = fro - A.length := by omega
      have h4 : max A.length til - A.length = til - A.length := by omega
      simp [h1, h2, h3, h4, List.take_of_length_le hd,
        List.take_of_length_le (le_refl A.length),
        List.drop_eq_nil_of_le hc, List.drop_eq_nil_of_le (le_refl A.length)]

theorem removeRange_spec :
    ∀ (n : Node) (fro til : Nat),
      wfb n = true → fro ≤ til → til ≤ n.size →
      ∃ n', n.removeRange fro til = some n' ∧ wfb n' = true ∧
        n'.toList = n.toList.take fro ++ n.toList.drop til := by
  intro n
  induction n with
  | leaf d =>
    intro fro til _ hft hle
    rw [size] at hle
    refine ⟨_, by rw [removeRange, if_pos hle], wfb_mkLeafPair _ _, ?_⟩
    rw [toList_mkLeafPair, toList, List.take_take, Nat.min_eq_left hft]
  | internal i s l r ihl ihr =>
    intro fro til hwf hft hle
    rw [wfb_internal] at hwf
    obtain ⟨hl, hr, hi, hs⟩ := hwf
    rw [size] at hle
    have hA : l.size = l.toList.length := size_eq_length hl
    have hB : r.size = r.toList.length := size_eq_length hr
    obtain ⟨l', hli, hlw, hlt⟩ :=
      ihl (min i fro) (min i til) hl (by omega) (by omega)
    obtain ⟨r', hri, hrw, hrt⟩ :=
      ihr (max i fro - i) (max i til - i) hr (by omega) (by omega)
    have hL' : l'.size = l'.toList.length := size_eq_length hlw
    have hR' : r'.size = r'.toList.length := size_eq_length hrw
    have hcomb : l'.toList ++ r'.toList = (l.toList ++ r.toList).take fro ++
        (l.toList ++ r.toList).drop til := by
      rw [hlt, hrt, splice_append _ _ _ _ hft]
      rw [← hA, hi]
    by_cases h0 : l'.size = 0
    · refine ⟨r'.promote, ?_, wfb_promote hrw, ?_⟩
      · rw [removeRange, hli, hri]
        simp [h0]
      · have hle' : l'.toList = [] := by
          rw [← List.length_eq_zero, ← hL', h0]
        rw [toList_promote, toList, ← hcomb, hle', List.nil_append]
    · by_cases h1 : r'.size = 0
      · refine ⟨l'.promote, ?_, wfb_promote hlw, ?_⟩
        · rw [removeRange, hli, hri]
          simp [h0, h1]
        · have hre : r'.toList = [] := by
            rw [← List.length_eq_zero, ← hR', h1]
          rw [toList_promote, toList, ← hcomb, hre, List.append_nil]
      · refine ⟨.internal l'.size (l'.size + r'.size) l' r', ?_, ?_, ?_⟩
        · rw [removeRange, hli, hri]
          simp [h0, h1]
        · rw [wfb_internal]; exact ⟨hlw, hrw, rfl, rfl⟩
        · rw [toList, toList, hcomb]

theorem flattenN_eq (n : Node) : n.flattenN = some (.leaf n.toList) := by
  induction n with
  | leaf d => rfl
  | internal i s l r ihl ihr => rw [flattenN, ihl, ihr, toList]

end Node

end Editr

/-! ## Lemmas about `collect` -/

namespace Editr

theorem concatAll_cons (d : Bytes) (rest : List Bytes) :
    concatAll (d :: rest) = d ++ concatAll rest := rfl

theorem concatAll_append (xs ys : List Bytes) :
    concatAll (xs ++ ys) = concatAll xs ++ concatAll ys := by
  induction xs with
  | nil => simp [concatAll]
  | cons d rest ih => simp [concatAll, ih]

theorem concatAll_leafDatas (n : Node) : concatAll n.leafDatas = n.toList := by
  induction n with
  | leaf d => simp [Node.leafDatas, concatAll, Node.toList]
  | internal i s l r ihl ihr =>
    rw [Node.leafDatas, concatAll_append, ihl, ihr, Node.toList]

theorem slice_cons (d CR : Bytes) (c fro til : Nat) (h1 : fro ≤ til) (h2 : c < til)
    (h3 : fro < c + d.length) :
    ((d ++ CR).take (til - c)).drop (fro - c) =
      (d.take (min (til - c) d.length)).drop (fro - c) ++
      (CR.take (til - (c + d.length))).drop (fro - (c + d.length)) := by
  have htk : d.take (til - c) = d.take (min (til - c) d.length) := by
    rw [← List.take_take, List.take_length]
  rw [List.take_append_eq_append_take, List.drop_append_eq_append_drop, htk,
    List.length_take]
  have e3 : til - c - d.length = til - (c + d.length) := by omega
  have e4 : fro - (c + d.length) = 0 := by omega
  have e5 : fro - c - min (min (til - c) d.length) d.length = 0 := by omega
  rw [e3, e4, e5]

theorem collectGo_spec :
    ∀ (ls : List Bytes) (c fro til : Nat), fro ≤ til →
      collectGo fro til c ls =
        some (((concatAll ls).take (til - c)).drop (fro - c)) := by
  intro ls
  induction ls with
  | nil => intro c fro til _; simp [collectGo, concatAll]
  | cons d rest ih =>
    intro c fro til h
    rw [collectGo]
    dsimp only
    by_cases hskip : til ≤ c ∨ c + d.length ≤ fro
    · rw [if_pos hskip, ih _ _ _ h]
      rcases hskip with hs1 | hs2
      · have e1 : til - (c + d.length) = 0 := by omega
        have e2 : til - c = 0 := by omega
        simp [e1, e2]
      · have e1 : d.length ≤ til - c := by omega
        have e2 : d.length ≤ fro - c := by omega
        rw [concatAll_cons, List.take_append_eq_append_take,
          List.drop_append_eq_append_drop, List.take_of_length_le e1]
        rw [List.drop_eq_nil_of_le e2, List.nil_append]
        rw [Nat.sub_sub, Nat.sub_sub]
    · rw [if_neg hskip]
      have hsf : (if c < fro then fro - c else 0) = fro - c := by
        split <;> omega
      have hst : (if til < c + d.length then til - c else d.length)
          = min (til - c) d.length := by
        split <;> omega
      rw [hsf, hst]
      have hguard : fro - c ≤ min (til - c) d.length ∧ min (til - c) d.length ≤ d.length := by
        constructor <;> omega
      rw [if_pos hguard, ih _ _ _ h, concatAll_cons,
        slice_cons d (concatAll rest) c fro til h (by omega) (by omega)]

theorem collect_spec (n : Node) (fro til : Nat) (h : fro ≤ til) :
    n.collect fro til = some ((n.toList.take til).drop fro) := by
  rw [Node.collect, collectGo_spec _ 0 _ _ h, concatAll_leafDatas]
  simp

theorem collect_all (n : Node) (hw : n.wfb = true) :
    n.collect 0 n.size = some n.toList := by
  rw [collect_spec n 0 n.size (Nat.zero_le _), Node.size_eq_length hw,
    List.take_length, List.drop_zero]

/-! ## The round-trip invariant (applyOps against the flat splice) -/

theorem applyOps_spec :
    ∀ (ops : List EditOp) (n : Node), n.wfb = true → okOps n.toList ops = true →
      ∃ n', applyOps n ops = some n' ∧ n'.wfb = true ∧
        n'.toList = refOps n.toList ops := by
  intro ops
  induction ops with
  | nil => intro n hw _; exact ⟨n, rfl, hw, rfl⟩
  | cons op rest ih =>
    intro n hw hok
    rw [okOps, Bool.and_eq_true] at hok
    obtain ⟨hok1, hok2⟩ := hok
    cases op with
    | ins i d =>
      rw [okOp] at hok1
      have hle : i ≤ n.toList.length := by simpa using hok1
      obtain ⟨n1, h1, h2, h3⟩ :=
        Node.insertAt_spec n i d hw (by rw [Node.size_eq_length hw]; exact hle)
      have hrf : refOp n.toList (.ins i d) = n1.toList := by rw [refOp, h3]
      obtain ⟨n', h4, h5, h6⟩ := ih n1 h2 (by rw [← hrf]; exact hok2)
      refine ⟨n', ?_, h5, ?_⟩
      · rw [applyOps, applyOp, h1]; exact h4
      · rw [refOps, hrf, ← h6]
    | del f len =>
      rw [okOp] at hok1
      have hle : f + len ≤ n.toList.length := by simpa using hok1
      obtain ⟨n1, h1, h2, h3⟩ :=
        Node.removeRange_spec n f (f + len) hw (by omega)
          (by rw [Node.size_eq_length hw]; exact hle)
      have hrf : refOp n.toList (.del f len) = n1.toList := by rw [refOp, h3]
      obtain ⟨n', h4, h5, h6⟩ := ih n1 h2 (by rw [← hrf]; exact hok2)
      refine ⟨n', ?_, h5, ?_⟩
      · rw [applyOps, applyOp, h1]; exact h4
      · rw [refOps, hrf, ← h6]

end Editr

/-! ## Lemmas about the maps and the broadcast loop -/

namespace Editr

theorem lookupT_updateT_self {t : Table} {p : Path} {fs x : FileSt}
    (h : lookupT t p = some fs) : lookupT (updateT t p x) p = some x := by
  induction t with
  | nil => simp [lookupT] at h
  | cons e rest ih =>
    by_cases he : e.1 = p
    · rw [updateT, if_pos he, lookupT, if_pos rfl]
    · rw [lookupT, if_neg he] at h
      rw [updateT, if_neg he, lookupT, if_neg he]
      exact ih h

theorem lookupT_updateT_ne {t : Table} {p q : Path} {x : FileSt}
    (h : q ≠ p) : lookupT (updateT t p x) q = lookupT t q := by
  induction t with
  | nil => simp [updateT]
  | cons e rest ih =>
    obtain ⟨ep, efs⟩ := e
    by_cases he : ep = p
    · subst he
      rw [updateT, if_pos rfl, lookupT, lookupT]
      rw [if_neg (fun hx => h hx.symm), if_neg (fun hx => h hx.symm)]
    · rw [updateT, if_neg he, lookupT, lookupT]
      by_cases hq : ep = q
      · rw [if_pos hq, if_pos hq]
      · rw [if_neg hq, if_neg hq]
        exact ih

theorem mem_updateT {t : Table} {p : Path} {x : FileSt} {e : Path × FileSt}
    (h : e ∈ updateT t p x) : e = (p, x) ∨ e ∈ t := by
  induction t with
  | nil => simp [updateT] at h
  | cons f rest ih =>
    by_cases hf : f.1 = p
    · rw [updateT, if_pos hf] at h
      rcases List.mem_cons.mp h with h1 | h1
      · exact Or.inl h1
      · exact Or.inr (List.mem_cons_of_mem _ h1)
    · rw [updateT, if_neg hf] at h
      rcases List.mem_cons.mp h with h1 | h1
      · exact Or.inr (h1 ▸ List.mem_cons_self _ _)
      · rcases ih h1 with h2 | h2
        · exact Or.inl h2
        · exact Or.inr (List.mem_cons_of_mem _ h2)

theorem lookupT_removeT (t : Table) (p : Path) : lookupT (removeT t p) p = none := by
  induction t with
  | nil => rfl
  | cons e rest ih =>
    rw [removeT, List.filter_cons]
    by_cases he : e.1 = p
    · rw [if_neg (by simp [he])]
      exact ih
    · rw [if_pos (by simp [he]), lookupT, if_neg he]
      exact ih

theorem mem_removeT {t : Table} {p : Path} {e : Path × FileSt}
    (h : e ∈ removeT t p) : e ∈ t := List.mem_of_mem_filter h

theorem lookupC_insertC_self (cs : List Client) (id : SessionId) (v : Nat × Option Nat) :
    lookupC (insertC cs id v) id = some v := by
  induction cs with
  | nil => simp [insertC, lookupC]
  | cons c rest ih =>
    rw [insertC, List.filter_cons]
    by_cases hc : c.1 = id
    · rw [if_neg (by simp [hc])]
      exact ih
    · rw [if_pos (by simp [hc]), List.cons_append, lookupC, if_neg hc]
      exact ih

theorem removeC_eq_nil {cs : List Client} {id : SessionId}
    (h : ∀ c ∈ cs, c.1 = id) : removeC cs id = [] := by
  rw [removeC, List.filter_eq_nil_iff]
  intro c hc
  simp [h c hc]

end Editr

/-! ## Lemmas about the outbound sinks and the broadcast loop -/

namespace Editr

theorem writeOut_spec :
    ∀ (out : Outbound) (id : SessionId) (m : Upd),
      (lookupOut out id).isSome = true →
      ∃ out', writeOut out id m = some out' ∧
        lookupOut out' id = (lookupOut out id).map (· ++ [m]) ∧
        ∀ j, j ≠ id → lookupOut out' j = lookupOut out j := by
  intro out
  induction out with
  | nil => intro id m h; simp [lookupOut] at h
  | cons e rest ih =>
    intro id m h
    obtain ⟨eid, ebuf⟩ := e
    by_cases he : eid = id
    · refine ⟨(eid, ebuf ++ [m]) :: rest, ?_, ?_, ?_⟩
      · rw [writeOut, if_pos he]
      · rw [lookupOut, if_pos he, lookupOut, if_pos he]
        rfl
      · intro j hj
        have hne : ¬(eid = j) := by rw [he]; exact fun hx => hj hx.symm
        rw [lookupOut, if_neg hne, lookupOut, if_neg hne]
    · rw [lookupOut, if_neg he] at h
      obtain ⟨o', ho1, ho2, ho3⟩ := ih id m h
      refine ⟨(eid, ebuf) :: o', ?_, ?_, ?_⟩
      · rw [writeOut, if_neg he, ho1]
        rfl
      · rw [lookupOut, if_neg he, lookupOut, if_neg he]
        exact ho2
      · intro j hj
        by_cases hejj : eid = j
        · rw [lookupOut, if_pos hejj, lookupOut, if_pos hejj]
        · rw [lookupOut, if_neg hejj, lookupOut, if_neg hejj]
          exact ho3 j hj

theorem bcastFold_spec :
    ∀ (cs : List Client) (out : Outbound) (selfId : SessionId) (m : Upd),
      (∀ c ∈ cs, c.1 ≠ selfId → (lookupOut out c.1).isSome = true) →
      (cs.map Prod.fst).Nodup →
      ∃ out', bcastFold selfId m cs out = some out' ∧
        (∀ j, j ≠ selfId → j ∈ cs.map Prod.fst →
          lookupOut out' j = (lookupOut out j).map (· ++ [m])) ∧
        (∀ j, j = selfId ∨ j ∉ cs.map Prod.fst →
          lookupOut out' j = lookupOut out j) := by
  intro cs
  induction cs with
  | nil =>
    intro out selfId m _ _
    exact ⟨out, rfl, fun j _ hj => by simp at hj, fun j _ => rfl⟩
  | cons c rest ih =>
    intro out selfId m hs hnd
    rw [List.map_cons, List.nodup_cons] at hnd
    obtain ⟨hc1, hnd'⟩ := hnd
    by_cases hcs : c.1 = selfId
    · obtain ⟨out', h1, h2, h3⟩ :=
        ih out selfId m (fun c' hc' => hs c' (List.mem_cons_of_mem _ hc')) hnd'
      refine ⟨out', by rw [bcastFold, if_pos hcs]; exact h1, ?_, ?_⟩
      · intro j hj hjm
        rcases List.mem_cons.mp hjm with h4 | h4
        · exact absurd (h4.trans hcs) hj
        · exact h2 j hj h4
      · intro j hj
        refine h3 j ?_
        rcases hj with h4 | h4
        · exact Or.inl h4
        · exact Or.inr (fun h5 => h4 (List.mem_cons_of_mem _ h5))
    · have hsome : (lookupOut out c.1).isSome = true :=
        hs c (List.mem_cons_self _ _) hcs
      obtain ⟨out1, hw1, hw2, hw3⟩ := writeOut_spec out c.1 m hsome
      have hs' : ∀ c' ∈ rest, c'.1 ≠ selfId → (lookupOut out1 c'.1).isSome = true := by
        intro c' hc' hne
        by_cases hcc : c'.1 = c.1
        · obtain ⟨buf, hbuf⟩ := Option.isSome_iff_exists.mp hsome
          rw [hcc, hw2, hbuf]
          rfl
        · rw [hw3 c'.1 hcc]
          exact hs c' (List.mem_cons_of_mem _ hc') hne
      obtain ⟨out', h1, h2, h3⟩ := ih out1 selfId m hs' hnd'
      refine ⟨out', by rw [bcastFold, if_neg hcs, hw1]; exact h1, ?_, ?_⟩
      · intro j hj hjm
        rcases List.mem_cons.mp hjm with h4 | h4
        · subst h4
          rw [h3 _ (Or.inr hc1), hw2]
        · have hjc : j ≠ c.1 := fun hx => hc1 (hx ▸ h4)
          rw [h2 j hj h4, hw3 j hjc]
      · intro j hj
        have hj2 : j = selfId ∨ j ∉ rest.map Prod.fst := by
          rcases hj with h4 | h4
          · exact Or.inl h4
          · exact Or.inr (fun h5 => h4 (List.mem_cons_of_mem _ h5))
        have hjc : j ≠ c.1 := by
          rcases hj with h4 | h4
          · exact fun hx => hcs (hx.symm.trans h4)
          · exact fun hx => h4 (by rw [hx]; exact List.mem_cons_self _ _)
        rw [h3 j hj2, hw3 j hjc]

end Editr

/-! ## Remaining helper lemmas -/

namespace Editr

theorem lookupT_append {t1 t2 : Table} {p : Path} (h : lookupT t1 p = none) :
    lookupT (t1 ++ t2) p = lookupT t2 p := by
  induction t1 with
  | nil => rfl
  | cons e rest ih =>
    rw [lookupT] at h
    by_cases he : e.1 = p
    · rw [if_pos he] at h
      exact absurd h (by simp)
    · rw [if_neg he] at h
      rw [List.cons_append, lookupT, if_neg he]
      exact ih h

theorem isUnder_append (home q : Path) : isUnder home (home ++ q) = true := by
  induction home with
  | nil => rfl
  | cons a rest ih =>
    rw [List.cons_append, isUnder]
    simp [ih]

end Editr

/-! ## The claims -/

namespace Editr

/-- C3: for every in-range sequence of `insert_at` and `remove` operations
applied to a fresh (empty) rope, with `B` the byte sequence obtained by
performing the same splices on a flat byte sequence, `collect(0, len())`
returns exactly `B` and `len()` equals the length of `B`. -/
theorem c3_round_trip (ops : List EditOp) (h : okOps [] ops = true) :
    ∃ n', applyOps ropeNew ops = some n' ∧
      n'.collect 0 n'.size = some (refOps [] ops) ∧
      n'.size = (refOps [] ops).length := by
  obtain ⟨n', h1, h2, h3⟩ := applyOps_spec ops ropeNew rfl h
  have h3' : n'.toList = refOps [] ops := h3
  refine ⟨n', h1, ?_, ?_⟩
  · rw [collect_all n' h2, h3']
  · rw [Node.size_eq_length h2, h3']

theorem c3_round_trip_wit :
    okOps [] [.ins 0 [1, 2, 3, 4], .del 1 2, .ins 2 [9]] = true ∧
    ∃ n', applyOps ropeNew [.ins 0 [1, 2, 3, 4], .del 1 2, .ins 2 [9]] = some n' ∧
      n'.collect 0 n'.size = some (refOps [] [.ins 0 [1, 2, 3, 4], .del 1 2, .ins 2 [9]]) ∧
      n'.size = (refOps [] [.ins 0 [1, 2, 3, 4], .del 1 2, .ins 2 [9]]).length :=
  ⟨by decide, c3_round_trip _ (by decide)⟩

/-- C5: the claim says `collect(from, to)` with `to > len()` fails with
`OutOfRange` and a reversed range also fails with an error.  Evaluating the
code at the failing input shows otherwise: on a 5-byte rope `collect(0, 6)`
succeeds and silently clamps, returning all 5 bytes; a reversed range
`collect(3, 1)` panics on the reversed slice (modelled `none`) instead of
returning an error value. -/
theorem c5_collect_clamps :
    (Node.leaf [1, 2, 3, 4, 5]).size = 5 ∧
    (Node.leaf [1, 2, 3, 4, 5]).collect 0 6 = some [1, 2, 3, 4, 5] ∧
    (Node.leaf [1, 2, 3, 4, 5]).collect 3 1 = none := by
  refine ⟨rfl, rfl, rfl⟩

/-- C7: the claim says an out-of-range offset makes the rope operation
return an `OutOfRange` error and leave the rope unchanged.  Evaluating the
code at the failing inputs: `insert_at(1, [7])` on the empty rope and
`remove_range(0, 2)` on a 1-byte rope both panic (`Vec::split_off` out of
bounds, modelled `none`) — no error value is returned and the lock is
poisoned. -/
theorem c7_out_of_range_panics :
    ropeNew.size = 0 ∧
    ropeNew.insertAt 1 [7] = none ∧
    (Node.leaf [1]).size = 1 ∧
    (Node.leaf [1]).removeRange 0 2 = none := by
  refine ⟨rfl, rfl, rfl, rfl⟩

/-- C9: after a flush (`SaveReq`) of an open file, the byte sequence written
to disk equals `collect(0, len())` of that file's rope at that moment, and
the flatten performed first collapses the whole tree to a single leaf
holding every byte in order without changing the content. -/
theorem c9_save_round_trip (t : Table) (l : LocalSt) (p : Path) (fs : FileSt)
    (hop : l.openedFile = some p) (hfs : lookupT t p = some fs)
    (hw : fs.rope.wfb = true) :
    fs.rope.flattenN = some (.leaf fs.rope.toList) ∧
    fs.rope.collect 0 fs.rope.size = some fs.rope.toList ∧
    ∃ t', fileSaveL t l = .ok (t', fs.rope.toList) ∧
      lookupT t' p = some { fs with rope := .leaf fs.rope.toList } := by
  refine ⟨Node.flattenN_eq _, collect_all _ hw, ?_⟩
  refine ⟨updateT t p { fs with rope := .leaf fs.rope.toList }, ?_, ?_⟩
  · simp only [fileSaveL, hop, flushT, hfs, Node.flattenN_eq,
      collect_all (Node.leaf fs.rope.toList) rfl]
    exact rfl
  · exact lookupT_updateT_self hfs

theorem c9_save_round_trip_wit :
    ∃ t', fileSaveL [([3], ⟨.internal 1 2 (.leaf [1]) (.leaf [2]), [(1, 0, none)]⟩)]
        ⟨1, [0], some [3]⟩ = .ok (t', [1, 2]) ∧
      lookupT t' [3] = some ⟨.leaf [1, 2], [(1, 0, none)]⟩ :=
  (c9_save_round_trip [([3], ⟨.internal 1 2 (.leaf [1]) (.leaf [2]), [(1, 0, none)]⟩)]
    ⟨1, [0], some [3]⟩ [3] ⟨.internal 1 2 (.leaf [1]) (.leaf [2]), [(1, 0, none)]⟩
    rfl rfl (by decide)).2.2

/-- C6 counterexample: the claim says `move_cursor(id, delta)` sets the
cursor to `(old + delta)` clamped to `[0, rope.len()]`.  On a 5-byte file
with the cursor at 0, a delta of `-1` must therefore yield 0
(`clampCursorSpec 0 (-1) 5 = 0`), but the code wraps the cursor to
`2^64 - 1` — a value different from the required one and far outside
`[0, 5]` — so the code does not clamp. -/
theorem c6_move_cursor_no_clamp_cex :
    (FileSt.moveCursor ⟨.leaf [1, 2, 3, 4, 5], [(1, 0, none)]⟩ 1 (-1)).clients
      = [(1, 18446744073709551615, none)] ∧
    (Node.leaf [1, 2, 3, 4, 5] : Node).size = 5 ∧
    clampCursorSpec 0 (-1) 5 = 0 ∧
    (18446744073709551615 : Nat) ≠ clampCursorSpec 0 (-1) 5 ∧
    ¬(18446744073709551615 ≤ 5) := by
  decide

/-- C6 (amended): for an attached id, `move_cursor(id, delta)` sets the
cursor to `(old + delta)` cast through `as usize` — wrapping modulo
`2 ^ 64`, with no clamping to `[0, rope.len()]` — and leaves the rope
untouched; for an id not attached to the file it is a no-op and does not
return an error. -/
theorem c6_move_cursor_amended (fs : FileSt) (id : SessionId) (delta : Int) :
    (lookupC fs.clients id = none → fs.moveCursor id delta = fs) ∧
    (∀ old nm, lookupC fs.clients id = some (old, nm) →
      (fs.moveCursor id delta).rope = fs.rope ∧
      lookupC (fs.moveCursor id delta).clients id =
        some (castUsize ((old : Int) + delta), nm)) := by
  constructor
  · intro h
    simp only [FileSt.moveCursor, h]
  · intro old nm h
    constructor
    · simp only [FileSt.moveCursor, h]
    · simp only [FileSt.moveCursor, h]
      exact lookupC_insertC_self _ _ _

theorem c6_move_cursor_amended_wit :
    (FileSt.moveCursor ⟨.leaf [1, 2, 3, 4, 5], [(1, 0, none)]⟩ 1 (-1)).rope
      = .leaf [1, 2, 3, 4, 5] ∧
    lookupC (FileSt.moveCursor ⟨.leaf [1, 2, 3, 4, 5], [(1, 0, none)]⟩ 1 (-1)).clients 1
      = some (castUsize ((0 : Int) + (-1)), none) :=
  (c6_move_cursor_amended ⟨.leaf [1, 2, 3, 4, 5], [(1, 0, none)]⟩ 1 (-1)).2 0 none rfl

end Editr

namespace Editr

/-- C4 counterexample: the claim says that after an insertion through the
absolute-offset write path every cursor at position `p ≥ offset` moves to
`p + len(data)`.  On a 4-byte file with one cursor at 2,
`FileStates::write` at offset 0 of one byte inserts the byte but leaves the
cursor at 2 (the claim demands 3 = 2 + 1): the absolute-offset path never
touches the cursor map. -/
theorem c4_absolute_write_no_shift_cex :
    writeT [([0], ⟨.leaf [1, 2, 3, 4], [(1, 2, none)]⟩)] [0] 0 [9]
      = some [([0], ⟨.internal 1 5 (.leaf [9]) (.leaf [1, 2, 3, 4]), [(1, 2, none)]⟩)] ∧
    (2 : Nat) ≠ 2 + [9].length := by
  refine ⟨rfl, by decide⟩

/-- C4 (amended): cursor shifting happens only on the cursor-based paths.
`write_at_cursor` (inserting at the caller's cursor `o`) moves every cursor
`p ≥ o` to `p + len(data)` and leaves every `p < o` unchanged;
`remove_at_cursor` (removing `[o, o+len)`) moves every cursor `p ≥ o` to
`max(o, p - len)` and leaves `p < o` unchanged; the absolute-offset
`FileStates::write` / `FileStates::remove` paths leave every cursor map in
the table unchanged. -/
theorem c4_cursor_shift_amended :
    (∀ (fs : FileSt) (id : SessionId) (data : Bytes) (fv : Nat) (nm : Option Nat),
      lookupC fs.clients id = some (fv, nm) → fs.rope.wfb = true →
      fv ≤ fs.rope.size →
      ∃ fs', fs.writeAtCursor id data = some (fs', fv) ∧
        fs'.rope.toList = fs.rope.toList.take fv ++ data ++ fs.rope.toList.drop fv ∧
        ∀ c ∈ fs.clients,
          (c.1, if c.2.1 < fv then c.2.1 else c.2.1 + data.length, c.2.2) ∈ fs'.clients) ∧
    (∀ (fs : FileSt) (id : SessionId) (len : Nat) (fv : Nat) (nm : Option Nat),
      lookupC fs.clients id = some (fv, nm) → fs.rope.wfb = true →
      fv + len ≤ fs.rope.size →
      ∃ fs', fs.removeAtCursor id len = some (fs', fv) ∧
        fs'.rope.toList = fs.rope.toList.take fv ++ fs.rope.toList.drop (fv + len) ∧
        ∀ c ∈ fs.clients,
          (c.1, if c.2.1 < fv then c.2.1 else max fv (c.2.1 - len), c.2.2) ∈ fs'.clients) ∧
    (∀ (t : Table) (p : Path) (offset : Nat) (data : Bytes) (t' : Table),
      writeT t p offset data = some t' →
      ∀ q, (lookupT t' q).map FileSt.clients = (lookupT t q).map FileSt.clients) ∧
    (∀ (t : Table) (p : Path) (offset len : Nat) (t' : Table),
      removeRangeT t p offset len = some t' →
      ∀ q, (lookupT t' q).map FileSt.clients = (lookupT t q).map FileSt.clients) := by
  refine ⟨?_, ?_, ?_, ?_⟩
  · intro fs id data fv nm hlk hw hle
    obtain ⟨rope', hr1, _, hr3⟩ := Node.insertAt_spec fs.rope fv data hw hle
    refine ⟨{ rope := rope',
              clients := fs.clients.map fun c =>
                if fv ≤ c.2.1 then (c.1, c.2.1 + data.length, c.2.2) else c },
            ?_, hr3, ?_⟩
    · simp only [FileSt.writeAtCursor, hlk, hr1]
    · intro c hc
      refine List.mem_map.mpr ⟨c, hc, ?_⟩
      show (if fv ≤ c.2.1 then ((c.1, c.2.1 + data.length, c.2.2) : Client) else c)
          = (c.1, if c.2.1 < fv then c.2.1 else c.2.1 + data.length, c.2.2)
      by_cases h2 : c.2.1 < fv
      · rw [if_neg (by omega : ¬fv ≤ c.2.1), if_pos h2]
      · rw [if_pos (by omega : fv ≤ c.2.1), if_neg h2]
  · intro fs id len fv nm hlk hw hle
    obtain ⟨rope', hr1, _, hr3⟩ :=
      Node.removeRange_spec fs.rope fv (fv + len) hw (by omega) hle
    refine ⟨{ rope := rope',
              clients := fs.clients.map fun c =>
                if fv ≤ c.2.1 then
                  (c.1, if c.2.1 < fv + len then fv else c.2.1 - len, c.2.2)
                else c },
            ?_, hr3, ?_⟩
    · simp only [FileSt.removeAtCursor, hlk, hr1]
    · intro c hc
      refine List.mem_map.mpr ⟨c, hc, ?_⟩
      show (if fv ≤ c.2.1 then
              ((c.1, if c.2.1 < fv + len then fv else c.2.1 - len, c.2.2) : Client)
            else c)
          = (c.1, if c.2.1 < fv then c.2.1 else max fv (c.2.1 - len), c.2.2)
      by_cases h2 : c.2.1 < fv
      · rw [if_neg (by omega : ¬fv ≤ c.2.1), if_pos h2]
      · rw [if_pos (by omega : fv ≤ c.2.1), if_neg h2]
        by_cases h3 : c.2.1 < fv + len
        · rw [if_pos h3]
          have he : max fv (c.2.1 - len) = fv := by omega
          rw [he]
        · rw [if_neg h3]
          have he : max fv (c.2.1 - len) = c.2.1 - len := by omega
          rw [he]
  · intro t p offset data t' h q
    cases hfs : lookupT t p with
    | none =>
      simp only [writeT, hfs] at h
      exact Option.noConfusion h
    | some fs =>
      cases hins : fs.rope.insertAt offset data with
      | none =>
        simp only [writeT, hfs, hins] at h
        exact Option.noConfusion h
      | some rope' =>
        simp only [writeT, hfs, hins, Option.some.injEq] at h
        subst h
        by_cases hq : q = p
        · subst hq
          rw [lookupT_updateT_self hfs, hfs]
          rfl
        · rw [lookupT_updateT_ne hq]
  · intro t p offset len t' h q
    cases hfs : lookupT t p with
    | none =>
      simp only [removeRangeT, hfs] at h
      exact Option.noConfusion h
    | some fs =>
      cases hins : fs.rope.removeRange offset (offset + len) with
      | none =>
        simp only [removeRangeT, hfs, hins] at h
        exact Option.noConfusion h
      | some rope' =>
        simp only [removeRangeT, hfs, hins, Option.some.injEq] at h
        subst h
        by_cases hq : q = p
        · subst hq
          rw [lookupT_updateT_self hfs, hfs]
          rfl
        · rw [lookupT_updateT_ne hq]

theorem c4_cursor_shift_amended_wit :
    ∃ fs', FileSt.writeAtCursor
        ⟨.leaf [1, 2, 3, 4], [(1, 2, none), (2, 3, none), (3, 1, none)]⟩ 1 [9, 9]
        = some (fs', 2) ∧
      fs'.rope.toList = (Node.leaf [1, 2, 3, 4]).toList.take 2 ++ [9, 9]
        ++ (Node.leaf [1, 2, 3, 4]).toList.drop 2 ∧
      ∀ c ∈ ([(1, 2, none), (2, 3, none), (3, 1, none)] : List Client),
        (c.1, if c.2.1 < 2 then c.2.1 else c.2.1 + [9, 9].length, c.2.2) ∈ fs'.clients :=
  c4_cursor_shift_amended.1
    ⟨.leaf [1, 2, 3, 4], [(1, 2, none), (2, 3, none), (3, 1, none)]⟩
    1 [9, 9] 2 none rfl rfl (by decide)

end Editr

namespace Editr

/-- C8: a canonical path is present in the file table exactly when at
least one session has that file open.  Open and close preserve the
invariant that every table entry has a non-empty client set; the first
open inserts the entry, loading the file into a fresh rope holding the
disk contents with the opener's cursor at 0; and closing the last
attached session removes the entry, so `contains(path)` returns false. -/
theorem c8_file_table_lifecycle :
    (∀ (disk : Path → Option Bytes) (t t' : Table) (p : Path) (id : SessionId)
        (nm : Option Nat),
      openT disk t p id nm = some t' →
      (∀ e ∈ t, e.2.clients ≠ []) → ∀ e ∈ t', e.2.clients ≠ []) ∧
    (∀ (t t' : Table) (p : Path) (id : SessionId),
      closeT t p id = some t' →
      (∀ e ∈ t, e.2.clients ≠ []) → ∀ e ∈ t', e.2.clients ≠ []) ∧
    (∀ (disk : Path → Option Bytes) (t : Table) (p : Path) (id : SessionId)
        (nm : Option Nat) (buf : Bytes),
      lookupT t p = none → disk p = some buf →
      ∃ t' rope, openT disk t p id nm = some t' ∧
        readToRope buf = some rope ∧ rope.toList = buf ∧
        lookupT t' p = some ⟨rope, [(id, 0, nm)]⟩) ∧
    (∀ (t : Table) (p : Path) (id : SessionId) (fs : FileSt),
      lookupT t p = some fs → (∀ c ∈ fs.clients, c.1 = id) →
      ∃ t', closeT t p id = some t' ∧ containsT t' p = false) := by
  refine ⟨?_, ?_, ?_, ?_⟩
  · intro disk t t' p id nm h hinv e he
    cases hfs : lookupT t p with
    | some fs =>
      simp only [openT, hfs, Option.some.injEq] at h
      subst h
      rcases mem_updateT he with h1 | h1
      · subst h1
        simp [FileSt.addClient, insertC]
      · exact hinv e h1
    | none =>
      cases hdisk : disk p with
      | none =>
        simp only [openT, hfs, hdisk] at h
        exact Option.noConfusion h
      | some buf =>
        cases hrt : readToRope buf with
        | none =>
          simp only [openT, hfs, hdisk, hrt] at h
          exact Option.noConfusion h
        | some rope =>
          simp only [openT, hfs, hdisk, hrt, Option.some.injEq] at h
          subst h
          rcases List.mem_append.mp he with h1 | h1
          · exact hinv e h1
          · rw [List.mem_singleton] at h1
            subst h1
            simp [FileSt.addClient, insertC]
  · intro t t' p id h hinv e he
    cases hfs : lookupT t p with
    | none =>
      simp only [closeT, hfs] at h
      exact Option.noConfusion h
    | some fs =>
      simp only [closeT, hfs, lookupT_updateT_self hfs, Option.some.injEq] at h
      by_cases hnc : (fs.removeClient id).noClients
      · rw [if_pos hnc] at h
        subst h
        rcases List.mem_filter.mp he with ⟨h2, hb⟩
        rcases mem_updateT h2 with h4 | h4
        · exfalso
          rw [h4] at hb
          simp at hb
        · exact hinv e h4
      · rw [if_neg hnc] at h
        subst h
        rcases mem_updateT he with h4 | h4
        · subst h4
          intro hnil
          apply hnc
          show (FileSt.removeClient fs id).clients.isEmpty = true
          rw [hnil]
          rfl
        · exact hinv e h4
  · intro disk t p id nm buf hlk hdisk
    obtain ⟨rope, hr1, _, hr3⟩ := Node.insertAt_spec ropeNew 0 buf rfl (Nat.zero_le _)
    have hrt : readToRope buf = some rope := hr1
    have hrtl : rope.toList = buf := by
      rw [hr3]
      simp [ropeNew, Node.toList]
    refine ⟨t ++ [(p, FileSt.addClient ⟨rope, []⟩ id nm)], rope, ?_, hrt, hrtl, ?_⟩
    · simp only [openT, hlk, hdisk, hrt]
    · rw [lookupT_append hlk]
      simp [lookupT, FileSt.addClient, insertC]
  · intro t p id fs hfs hall
    have hnc : (fs.removeClient id).noClients = true := by
      show (removeC fs.clients id).isEmpty = true
      rw [removeC_eq_nil hall]
      rfl
    refine ⟨removeT (updateT t p (fs.removeClient id)) p, ?_, ?_⟩
    · simp only [closeT, hfs, lookupT_updateT_self hfs, hnc, if_true]
    · rw [containsT, lookupT_removeT]
      rfl

theorem c8_file_table_lifecycle_wit :
    (∃ t' rope, openT (fun _ => some [7, 8]) [] [4] 1 none = some t' ∧
      readToRope [7, 8] = some rope ∧ rope.toList = [7, 8] ∧
      lookupT t' [4] = some ⟨rope, [(1, 0, none)]⟩) ∧
    (∃ t', closeT [([4], ⟨.leaf [7, 8], [(1, 0, none)]⟩)] [4] 1 = some t' ∧
      containsT t' [4] = false) :=
  ⟨c8_file_table_lifecycle.2.2.1 (fun _ => some [7, 8]) [] [4] 1 none [7, 8] rfl rfl,
   c8_file_table_lifecycle.2.2.2 [([4], ⟨.leaf [7, 8], [(1, 0, none)]⟩)] [4] 1
     ⟨.leaf [7, 8], [(1, 0, none)]⟩ rfl (by decide)⟩

/-- C10: processing OpenReq(B) detaches the session from its current file A
before the new path is validated or opened; if the open of B then fails
(canonicalisation failure for a nonexistent file, or a path escaping
canonical_home), the session is left with no open file — it is not
re-attached to A — and a subsequent file-scoped operation returns the
"File not open" error. -/
theorem c10_open_detaches_first (canon : Path → Option Path)
    (disk : Path → Option Bytes) (t tc : Table) (l : LocalSt) (pA up : Path)
    (hop : l.openedFile = some pA)
    (hcl : closeT t pA l.threadId = some tc)
    (hfail : canon (prependHome l.canonicalHome up) = none ∨
      ∃ cp, canon (prependHome l.canonicalHome up) = some cp ∧
        isUnder l.canonicalHome cp = false) :
    (∃ e, fileOpenL canon disk t l up = (.error e, tc, { l with openedFile := none })) ∧
    (∀ out offset data,
      fileWriteL tc out { l with openedFile := none } offset data
        = .error .notOpen) := by
  constructor
  · rcases hfail with h | ⟨cp, h1, h2⟩
    · exact ⟨.ioErr, by simp only [fileOpenL, fileCloseL, hop, hcl, h]⟩
    · refine ⟨.invalidPath, ?_⟩
      simp only [fileOpenL, fileCloseL, hop, hcl, h1, h2]
      rfl
  · intro out offset data
    rfl

theorem c10_open_detaches_first_wit :
    (∃ e, fileOpenL (fun _ => none) (fun _ => none)
        [([3], ⟨.leaf [1], [(1, 0, none)]⟩)] ⟨1, [0], some [3]⟩ [5]
        = (.error e, [], ⟨1, [0], none⟩)) ∧
    (∀ out offset data,
      fileWriteL [] out ⟨1, [0], none⟩ offset data = .error .notOpen) :=
  c10_open_detaches_first (fun _ => none) (fun _ => none)
    [([3], ⟨.leaf [1], [(1, 0, none)]⟩)] [] ⟨1, [0], some [3]⟩ [3] [5]
    rfl rfl (Or.inl rfl)

end Editr

namespace Editr

/-- C1 counterexample: the claim says every file-scoped request on a path
whose canonical resolution lies outside canonical_home fails with
"Invalid file path" and has no side effect.  With home `[0]`, a user path
whose canonicalisation resolves to `[9]` (outside home, witnessed by
`isUnder [0] [9] = false`) and a disk holding that file, `file_delete`
returns Ok and removes the file — a file-system side effect with no
path-escape error. -/
theorem c1_delete_escapes_cex :
    isUnder [0] [9] = false ∧
    (fileDeleteL (fun p => if p = [0, 5] then some [9] else none)
        (fun q => q == [9]) [] ⟨1, [0], none⟩ [5]).1 = .ok () ∧
    ((fun q : Path => q == [9]) [9] = true) ∧
    (fileDeleteL (fun p => if p = [0, 5] then some [9] else none)
        (fun q => q == [9]) [] ⟨1, [0], none⟩ [5]).2 [9] = false := by
  refine ⟨rfl, rfl, rfl, rfl⟩

/-- C1 (amended): only OpenReq enforces the sandbox.  For a user path whose
canonical resolution `cp` lies outside canonical_home, `file_open` returns
the "Invalid file path" error and (for a session with no file open) leaves
the file table and session state unchanged; CreateReq, DeleteReq and
RenameReq perform no home-prefix check at all: even for that same user
path, `file_create` creates a file at the raw joined path (it never calls
canonicalize, let alone the prefix check), `file_delete` deletes the
resolved outside file whenever it exists on disk and is not open in the
table, and `file_rename` renames the resolved outside source file to the
raw joined target whenever the target does not exist and the source is not
open in the table. -/
theorem c1_open_only_sandbox (canon : Path → Option Path) (t : Table)
    (l : LocalSt) (up cp : Path)
    (hc : canon (prependHome l.canonicalHome up) = some cp)
    (hout : isUnder l.canonicalHome cp = false) :
    (∀ disk, l.openedFile = none →
      fileOpenL canon disk t l up = (.error .invalidPath, t, l)) ∧
    (∀ diskHas : Path → Bool, diskHas (prependHome l.canonicalHome up) = false →
      (fileCreateL diskHas l up).1 = .ok () ∧
      (fileCreateL diskHas l up).2 (prependHome l.canonicalHome up) = true) ∧
    (∀ diskHas : Path → Bool, containsT t cp = false → diskHas cp = true →
      (fileDeleteL canon diskHas t l up).1 = .ok () ∧
      (fileDeleteL canon diskHas t l up).2 cp = false) ∧
    (∀ (diskHas : Path → Bool) (tp : Path),
      diskHas (prependHome l.canonicalHome tp) = false →
      containsT t cp = false → diskHas cp = true →
      (fileRenameL canon diskHas t l up tp).1 = .ok () ∧
      (fileRenameL canon diskHas t l up tp).2 cp = false ∧
      (fileRenameL canon diskHas t l up tp).2 (prependHome l.canonicalHome tp) = true) := by
  refine ⟨?_, ?_, ?_, ?_⟩
  · intro disk hop
    simp only [fileOpenL, fileCloseL, hop, hc, hout]
    rfl
  · intro diskHas hdk
    constructor
    · simp only [fileCreateL, hdk]
      rfl
    · simp only [fileCreateL, hdk]
      simp
  · intro diskHas hct hdk
    constructor
    · simp only [fileDeleteL, hc, hct, hdk]
      rfl
    · simp only [fileDeleteL, hc, hct, hdk]
      simp
  · intro diskHas tp htp hct hdk
    have hne : prependHome l.canonicalHome tp ≠ cp := by
      intro h
      rw [← h, prependHome, isUnder_append] at hout
      exact Bool.noConfusion hout
    refine ⟨?_, ?_, ?_⟩
    · simp only [fileRenameL, hc, htp, hct, hdk]
      rfl
    · simp only [fileRenameL, hc, htp, hct, hdk]
      simp
    · simp only [fileRenameL, hc, htp, hct, hdk]
      simp [hne]

theorem c1_open_only_sandbox_wit :
    (fileOpenL (fun p => if p = [0, 5] then some [9] else none) (fun _ => none)
        [] ⟨1, [0], none⟩ [5] = (.error .invalidPath, [], ⟨1, [0], none⟩)) ∧
    ((fileCreateL (fun q => q == [9]) ⟨1, [0], none⟩ [5]).1 = .ok () ∧
      (fileCreateL (fun q => q == [9]) ⟨1, [0], none⟩ [5]).2 [0, 5] = true) ∧
    ((fileDeleteL (fun p => if p = [0, 5] then some [9] else none)
        (fun q => q == [9]) [] ⟨1, [0], none⟩ [5]).1 = .ok () ∧
      (fileDeleteL (fun p => if p = [0, 5] then some [9] else none)
        (fun q => q == [9]) [] ⟨1, [0], none⟩ [5]).2 [9] = false) ∧
    ((fileRenameL (fun p => if p = [0, 5] then some [9] else none)
        (fun q => q == [9]) [] ⟨1, [0], none⟩ [5] [6]).1 = .ok () ∧
      (fileRenameL (fun p => if p = [0, 5] then some [9] else none)
        (fun q => q == [9]) [] ⟨1, [0], none⟩ [5] [6]).2 [9] = false ∧
      (fileRenameL (fun p => if p = [0, 5] then some [9] else none)
        (fun q => q == [9]) [] ⟨1, [0], none⟩ [5] [6]).2 [0, 6] = true) :=
  ⟨(c1_open_only_sandbox (fun p => if p = [0, 5] then some [9] else none)
      [] ⟨1, [0], none⟩ [5] [9] rfl rfl).1 (fun _ => none) rfl,
   (c1_open_only_sandbox (fun p => if p = [0, 5] then some [9] else none)
      [] ⟨1, [0], none⟩ [5] [9] rfl rfl).2.1 (fun q => q == [9]) rfl,
   (c1_open_only_sandbox (fun p => if p = [0, 5] then some [9] else none)
      [] ⟨1, [0], none⟩ [5] [9] rfl rfl).2.2.1 (fun q => q == [9]) rfl rfl,
   (c1_open_only_sandbox (fun p => if p = [0, 5] then some [9] else none)
      [] ⟨1, [0], none⟩ [5] [9] rfl rfl).2.2.2 (fun q => q == [9]) [6] rfl rfl rfl⟩

/-- C2 counterexample: the claim says every successful mutation — including
WriteAtCursorReq — produces exactly one update envelope on every other
attached session's sink.  With sessions 1 and 2 both attached to file `[0]`
and empty sinks, session 1's `file_write_cursor` succeeds (the mutation is
applied) yet both sinks stay empty: the cursor-based write path emits no
broadcast at all. -/
theorem c2_cursor_write_no_broadcast_cex :
    fileWriteCursorL [([0], ⟨.leaf [1, 2], [(1, 0, none), (2, 0, none)]⟩)]
        [(1, []), (2, [])] ⟨1, [7], some [0]⟩ [5]
      = .ok ([([0], ⟨.internal 1 3 (.leaf [5]) (.leaf [1, 2]),
              [(1, 1, none), (2, 1, none)]⟩)],
             [(1, []), (2, [])]) ∧
    lookupOut [(1, []), (2, [])] 2 = some [] := by
  refine ⟨rfl, rfl⟩

/-- C2 (amended): the absolute-offset mutations broadcast correctly: a
successful `file_write` / `file_remove` by session S on file F appends
exactly one corresponding envelope (`Add{offset, data}` / `Remove{offset,
len}`) to the sink of every session ≠ S attached to F, appends nothing to
S's own sink and nothing to any sink of a session not attached to F; the
cursor-based mutations `file_write_cursor` / `file_remove_cursor` emit no
broadcast at all, returning the outbound table unchanged. -/
theorem c2_broadcast_amended (t : Table) (out : Outbound) (l : LocalSt)
    (p : Path) (fs : FileSt)
    (hop : l.openedFile = some p) (hfs : lookupT t p = some fs)
    (hw : fs.rope.wfb = true)
    (hnd : (fs.clients.map Prod.fst).Nodup)
    (hsink : ∀ c ∈ fs.clients, c.1 ≠ l.threadId → (lookupOut out c.1).isSome = true) :
    (∀ offset data, offset ≤ fs.rope.size →
      ∃ t' out', fileWriteL t out l offset data = .ok (t', out') ∧
        (∀ j, j ≠ l.threadId → j ∈ fs.clients.map Prod.fst →
          lookupOut out' j = (lookupOut out j).map (· ++ [Upd.add offset data])) ∧
        (∀ j, j = l.threadId ∨ j ∉ fs.clients.map Prod.fst →
          lookupOut out' j = lookupOut out j)) ∧
    (∀ offset len, offset + len ≤ fs.rope.size →
      ∃ t' out', fileRemoveL t out l offset len = .ok (t', out') ∧
        (∀ j, j ≠ l.threadId → j ∈ fs.clients.map Prod.fst →
          lookupOut out' j = (lookupOut out j).map (· ++ [Upd.rem offset len])) ∧
        (∀ j, j = l.threadId ∨ j ∉ fs.clients.map Prod.fst →
          lookupOut out' j = lookupOut out j)) ∧
    (∀ data t' out', fileWriteCursorL t out l data = .ok (t', out') → out' = out) ∧
    (∀ len t' out', fileRemoveCursorL t out l len = .ok (t', out') → out' = out) := by
  refine ⟨?_, ?_, ?_, ?_⟩
  · intro offset data hoff
    obtain ⟨rope', hr1, _, _⟩ := Node.insertAt_spec fs.rope offset data hw hoff
    obtain ⟨out', hb1, hb2, hb3⟩ :=
      bcastFold_spec fs.clients out l.threadId (.add offset data) hsink hnd
    refine ⟨updateT t p { fs with rope := rope' }, out', ?_, hb2, hb3⟩
    simp only [fileWriteL, hop, writeT, hfs, hr1, broadcastNeighbours,
      lookupT_updateT_self hfs, hb1]
  · intro offset len hoff
    obtain ⟨rope', hr1, _, _⟩ :=
      Node.removeRange_spec fs.rope offset (offset + len) hw (by omega) hoff
    obtain ⟨out', hb1, hb2, hb3⟩ :=
      bcastFold_spec fs.clients out l.threadId (.rem offset len) hsink hnd
    refine ⟨updateT t p { fs with rope := rope' }, out', ?_, hb2, hb3⟩
    simp only [fileRemoveL, hop, removeRangeT, hfs, hr1, broadcastNeighbours,
      lookupT_updateT_self hfs, hb1]
  · intro data t' out' h
    simp only [fileWriteCursorL, hop] at h
    cases hwc : writeCursorT t p l.threadId data with
    | none =>
      rw [hwc] at h
      exact Except.noConfusion h
    | some r =>
      rw [hwc] at h
      obtain ⟨t'', off⟩ := r
      simp only [Except.ok.injEq, Prod.mk.injEq] at h
      exact h.2.symm
  · intro len t' out' h
    simp only [fileRemoveCursorL, hop] at h
    cases hwc : removeCursorT t p l.threadId len with
    | none =>
      rw [hwc] at h
      exact Except.noConfusion h
    | some r =>
      rw [hwc] at h
      obtain ⟨t'', off⟩ := r
      simp only [Except.ok.injEq, Prod.mk.injEq] at h
      exact h.2.symm

theorem c2_broadcast_amended_wit :
    ∃ t' out',
      fileWriteL [([0], ⟨.leaf [1, 2], [(1, 0, none), (2, 0, none)]⟩)]
        [(1, []), (2, [])] ⟨1, [7], some [0]⟩ 0 [5] = .ok (t', out') ∧
      lookupOut out' 2 = some [Upd.add 0 [5]] ∧
      lookupOut out' 1 = some [] := by
  obtain ⟨t', out', h1, h2, h3⟩ :=
    (c2_broadcast_amended [([0], ⟨.leaf [1, 2], [(1, 0, none), (2, 0, none)]⟩)]
      [(1, []), (2, [])] ⟨1, [7], some [0]⟩ [0]
      ⟨.leaf [1, 2], [(1, 0, none), (2, 0, none)]⟩
      rfl rfl rfl (by decide) (by decide)).1 0 [5] (by decide)
  refine ⟨t', out', h1, ?_, ?_⟩
  · rw [h2 2 (by decide) (by decide)]
    rfl
  · rw [h3 1 (Or.inl rfl)]
    rfl

end Editr
